import Mathlib

/-!
Shallow embedding of the ybsc crate (Yale Bright Star Catalog decoder).

Byte streams are `List ℕ` (each element a byte value `< 256`); readers
consume a prefix and return the decoded value together with the remaining
stream, or an error.  IEEE-754 floats are embedded as their bit patterns
(`ℕ`), with an exact rational semantics `f32ToRat` / `f64ToRat` and
round-to-nearest-even rounding `roundF32` used for the one arithmetic
operation the program performs on floats (`mag as f32 / 100.0`).
Machine integers are `ℤ` with explicit two's-complement wrapping where the
source can overflow (`-hdr.starn as usize`).  The top-level decoder's
outcome type `DResult` distinguishes a normal return (`Ok`/`Err`) from a
panic: the `Vec::with_capacity(nstar)` call panics with capacity overflow
whenever the requested capacity exceeds `isize::MAX` bytes, which the
derived record count `2^64 - 2^31` (from `starn = -2^31`) triggers.
-/

namespace Ybsc

/-- Decidable equality of `Except` values, for evaluating the decoder on
concrete inputs. -/
instance {ε α : Type} [DecidableEq ε] [DecidableEq α] :
    DecidableEq (Except ε α)
  | .error e, .error f =>
    if h : e = f then .isTrue (by rw [h])
    else .isFalse (by intro hh; cases hh; exact h rfl)
  | .error e, .ok b => .isFalse (by intro hh; cases hh)
  | .ok a, .error f => .isFalse (by intro hh; cases hh)
  | .ok a, .ok b =>
    if h : a = b then .isTrue (by rw [h])
    else .isFalse (by intro hh; cases hh; exact h rfl)

/-- Error kinds of the decoder: truncated input (a failing `read_exact`),
an invalid char byte, `nbent ≠ 32`, `stnum ∉ {0,1,2}`, and an invalid
star number (carrying the offending f32 bit pattern). -/
inductive Err where
  | truncated : Err
  | invalidChar : ℕ → Err
  | badEntrySize : ℤ → Err
  | invalidStnum : ℤ → Err
  | invalidStarNumber : ℕ → Err
deriving DecidableEq, Repr

/-- Read exactly `n` bytes from the stream (Rust `read_exact`): fails with
a truncation error when fewer than `n` bytes remain. -/
def readBytes (n : ℕ) (s : List ℕ) : Except Err (List ℕ × List ℕ) :=
  if n ≤ s.length then .ok (s.take n, s.drop n) else .error .truncated

/-- Sequencing of two stream readers, the `?`-operator chaining of the
source: run `f`, propagate its error, and feed its value and the
remaining stream to `g`. -/
def pstep {α β : Type} (f : List ℕ → Except Err (α × List ℕ))
    (g : α → List ℕ → Except Err (β × List ℕ)) (s : List ℕ) :
    Except Err (β × List ℕ) :=
  match f s with
  | .error e => .error e
  | .ok (a, s') => g a s'

/-- Little-endian value of a byte list (first byte is least significant). -/
def leNat (bs : List ℕ) : ℕ :=
  bs.foldr (fun b acc => b + 256 * acc) 0

/-- Reinterpret an unsigned `w`-bit value as a signed (two's-complement)
integer. -/
def toSigned (w : ℕ) (n : ℕ) : ℤ :=
  if n < 2 ^ (w - 1) then (n : ℤ) else (n : ℤ) - 2 ^ w

/-- Rust `char::from_u32`: succeeds exactly on Unicode scalar values. -/
def charFromU32 (n : ℕ) : Option ℕ :=
  if n < 0xD800 ∨ (0xE000 ≤ n ∧ n < 0x110000) then some n else none

/-- `read_char`: one byte, interpreted as a code point via `char::from_u32`;
a non-scalar-value byte would give the invalid-char error. -/
def read_char (s : List ℕ) : Except Err (ℕ × List ℕ) :=
  pstep (readBytes 1)
    (fun bs r =>
      match charFromU32 (leNat bs) with
      | some c => .ok (c, r)
      | none => .error (.invalidChar (leNat bs))) s

/-- `read_i16`: two little-endian bytes as a signed 16-bit integer. -/
def read_i16 (s : List ℕ) : Except Err (ℤ × List ℕ) :=
  pstep (readBytes 2) (fun bs r => .ok (toSigned 16 (leNat bs), r)) s

/-- `read_i32`: four little-endian bytes as a signed 32-bit integer. -/
def read_i32 (s : List ℕ) : Except Err (ℤ × List ℕ) :=
  pstep (readBytes 4) (fun bs r => .ok (toSigned 32 (leNat bs), r)) s

/-- `read_u32`: four little-endian bytes as an unsigned 32-bit integer. -/
def read_u32 (s : List ℕ) : Except Err (ℕ × List ℕ) :=
  pstep (readBytes 4) (fun bs r => .ok (leNat bs, r)) s

/-- `read_u64`: eight little-endian bytes as an unsigned 64-bit integer. -/
def read_u64 (s : List ℕ) : Except Err (ℕ × List ℕ) :=
  pstep (readBytes 8) (fun bs r => .ok (leNat bs, r)) s

/-- `read_f32`: an f32 read as its 32-bit little-endian bit pattern
(`f32::from_bits`). -/
def read_f32 (s : List ℕ) : Except Err (ℕ × List ℕ) :=
  read_u32 s

/-- `read_f64`: an f64 read as its 64-bit little-endian bit pattern
(`f64::from_bits`). -/
def read_f64 (s : List ℕ) : Except Err (ℕ × List ℕ) :=
  read_u64 s

/-! ### IEEE-754 binary32 semantics on bit patterns -/

/-- Exponent field of an f32 bit pattern. -/
def f32Expo (b : ℕ) : ℕ := b / 2 ^ 23 % 2 ^ 8

/-- Mantissa (fraction) field of an f32 bit pattern. -/
def f32Mant (b : ℕ) : ℕ := b % 2 ^ 23

/-- Sign bit of an f32 bit pattern. -/
def f32Sign (b : ℕ) : ℕ := b / 2 ^ 31 % 2

/-- Rust `f32::is_finite`: the exponent field is not all-ones. -/
def f32IsFinite (b : ℕ) : Bool := f32Expo b != 255

/-- The IEEE comparison `x < 0.0` on an f32 bit pattern: false on NaN and
on negative zero, true on negative finite values and negative infinity. -/
def f32LtZero (b : ℕ) : Bool :=
  (f32Expo b != 255 || f32Mant b == 0) && f32Sign b == 1 &&
    !(f32Expo b == 0 && f32Mant b == 0)

/-- Truncation toward zero of a non-negative finite f32 bit pattern
(sign ignored): the integer part of `(2^23 + m) · 2^(e-150)`. -/
def f32TruncPos (b : ℕ) : ℕ :=
  if f32Expo b = 0 then 0
  else (2 ^ 23 + f32Mant b) * 2 ^ f32Expo b / 2 ^ 150

/-- Rust `as u32` on an f32: saturating cast — NaN to 0, values below 0
to 0, values at or above `2^32` to `u32::MAX`, otherwise truncation
toward zero. -/
def f32AsU32 (b : ℕ) : ℕ :=
  if f32Expo b = 255 ∧ f32Mant b ≠ 0 then 0
  else if f32Sign b = 1 then 0
  else if f32Expo b = 255 then 2 ^ 32 - 1
  else min (f32TruncPos b) (2 ^ 32 - 1)

/-- Exact rational value of a finite f32 bit pattern: the dyadic
`±(2^23 + m) · 2^(e-150)` for normal numbers, `±m · 2^(-149)` for
subnormals (written as quotients of naturals so the kernel can
evaluate). -/
def f32ToRat (b : ℕ) : ℚ :=
  let e := f32Expo b
  let m := f32Mant b
  let mag : ℚ :=
    if e = 0 then mkRat (Int.ofNat m) (2 ^ 149)
    else mkRat (Int.ofNat ((2 ^ 23 + m) * 2 ^ e)) (2 ^ 150)
  if f32Sign b = 0 then mag else -mag

/-- Exact rational value of a finite f64 bit pattern:
`±(2^52 + m) · 2^(e-1075)` for normal numbers, `±m · 2^(-1074)` for
subnormals. -/
def f64ToRat (b : ℕ) : ℚ :=
  let e : ℕ := b / 2 ^ 52 % 2 ^ 11
  let m : ℕ := b % 2 ^ 52
  let mag : ℚ :=
    if e = 0 then mkRat (Int.ofNat m) (1 <<< 1074)
    else mkRat (Int.ofNat ((2 ^ 52 + m) <<< e)) (1 <<< 1075)
  if b / 2 ^ 63 % 2 = 0 then mag else -mag

/-- Floor of a rational, computed directly from its reduced fraction. -/
def ratFloor (x : ℚ) : ℤ := x.num / x.den

/-- Round a rational to the nearest integer, ties to even. -/
def rneInt (x : ℚ) : ℤ :=
  let n := ratFloor x
  if x - mkRat n 1 < mkRat 1 2 then n
  else if mkRat 1 2 < x - mkRat n 1 then n + 1
  else if n % 2 = 0 then n else n + 1

/-- Base-2 logarithm of a natural number by repeated halving, with
explicit fuel (structurally recursive, hence kernel-reducible). -/
def log2Fuel : ℕ → ℕ → ℕ
  | 0, _ => 0
  | f + 1, n => if n ≤ 1 then 0 else log2Fuel f (n / 2) + 1

/-- The rational `2^k` for an integer `k`, via natural-number powers. -/
def pow2Z (k : ℤ) : ℚ :=
  if 0 ≤ k then mkRat (Int.ofNat (2 ^ k.toNat)) 1 else mkRat 1 (2 ^ (-k).toNat)

/-- Floor of the base-2 logarithm of a positive rational: the unique `e`
with `2^e ≤ a < 2^(e+1)`. -/
def ratLog2 (a : ℚ) : ℤ :=
  let p : ℤ := log2Fuel a.num.toNat a.num.toNat
  let q : ℤ := log2Fuel a.den a.den
  if pow2Z (p - q) ≤ a then p - q else p - q - 1

/-- Round a positive rational to the nearest f32, ties to even, returning
the bit pattern (sign bit clear); overflows to positive infinity. -/
def roundPosF32 (a : ℚ) : ℕ :=
  let e : ℤ := ratLog2 a
  if e < -126 then (rneInt (a * pow2Z 149)).toNat
  else if 127 < e then 0x7F800000
  else
    let m := (rneInt (a * pow2Z (23 - e))).toNat
    if 2 ^ 24 ≤ m then
      if e = 127 then 0x7F800000 else (e + 128).toNat * 2 ^ 23
    else (e + 127).toNat * 2 ^ 23 + (m - 2 ^ 23)

/-- Round a rational to the nearest f32 (round to nearest, ties to even),
returning the bit pattern. -/
def roundF32 (q : ℚ) : ℕ :=
  if q < 0 then 2 ^ 31 + roundPosF32 (-q)
  else if q = 0 then 0
  else roundPosF32 q

/-- Bit pattern of the f32 literal `100.0`. -/
def c100 : ℕ := 0x42C80000

/-- Rust `i16 as f32` (exact, as every i16 is representable): the correctly
rounded f32 of the integer. -/
def i16AsF32 (m : ℤ) : ℕ := roundF32 (mkRat m 1)

/-- IEEE f32 division on bit patterns of finite operands with a nonzero
divisor: the correctly rounded exact quotient. -/
def f32Div (a b : ℕ) : ℕ := roundF32 (f32ToRat a / f32ToRat b)

/-- The magnitude conversion `mag as f32 / 100.0` of `Star::try_from`. -/
def magConvert (m : ℤ) : ℕ := f32Div (i16AsF32 m) c100

/-! ### Data model -/

/-- Generic entry (star) type, mirroring `Entry<T,U>`: `xno : T`,
`mag : U`; `sra0`, `sdec0` are f64 bit patterns, `xrpm`, `xdpm` f32 bit
patterns, and `is` the pair of spectral-type code points. -/
structure Entry (T U : Type) where
  xno : T
  sra0 : ℕ
  sdec0 : ℕ
  is : ℕ × ℕ
  mag : U
  xrpm : ℕ
  xdpm : ℕ
deriving DecidableEq, Repr

/-- `Star = Entry<u32,f32>`: catalog number as `ℕ`, magnitude as an f32
bit pattern. -/
abbrev Star := Entry ℕ ℕ

/-- `RawEntry = Entry<f32,i16>`: catalog number as an f32 bit pattern,
magnitude as a signed integer. -/
abbrev RawEntry := Entry ℕ ℤ

/-- `Entry::valid`: at least one spectral-type character is not a space
(code point 32). -/
def Entry.valid {T U : Type} (e : Entry T U) : Bool :=
  e.is.1 != 32 || e.is.2 != 32

/-- The on-disk header: seven consecutive little-endian i32 fields
(`mprop` decoded as `≠ 0`). -/
structure RawHeader where
  star0 : ℤ
  star1 : ℤ
  starn : ℤ
  stnum : ℤ
  mprop : Bool
  nmag : ℤ
  nbent : ℤ
deriving DecidableEq, Repr

/-- `RawHeader::read_from`: seven sequential `read_i32` (the fifth
compared with 0 to make `mprop`). -/
def RawHeader.read_from : List ℕ → Except Err (RawHeader × List ℕ) :=
  pstep read_i32 fun star0 =>
  pstep read_i32 fun star1 =>
  pstep read_i32 fun starn =>
  pstep read_i32 fun stnum =>
  pstep read_i32 fun mpropRaw =>
  pstep read_i32 fun nmag =>
  pstep read_i32 fun nbent =>
  fun s => .ok (⟨star0, star1, starn, stnum, mpropRaw != 0, nmag, nbent⟩, s)

/-- `RawEntry::read_from`: xno (f32), sra0 (f64), sdec0 (f64), two chars,
mag (i16), xrpm (f32), xdpm (f32) — 32 bytes in that order. -/
def RawEntry.read_from : List ℕ → Except Err (RawEntry × List ℕ) :=
  pstep read_f32 fun xno =>
  pstep read_f64 fun sra0 =>
  pstep read_f64 fun sdec0 =>
  pstep read_char fun is0 =>
  pstep read_char fun is1 =>
  pstep read_i16 fun mag =>
  pstep read_f32 fun xrpm =>
  pstep read_f32 fun xdpm =>
  fun s => .ok (⟨xno, sra0, sdec0, (is0, is1), mag, xrpm, xdpm⟩, s)

/-- `TryFrom<RawEntry> for Star`: reject a non-finite or negative star
number, narrow it with `as u32`, and rescale the magnitude by `/ 100.0`. -/
def Star.tryFrom (raw : RawEntry) : Except Err Star :=
  if !f32IsFinite raw.xno || f32LtZero raw.xno then
    .error (.invalidStarNumber raw.xno)
  else
    .ok ⟨f32AsU32 raw.xno, raw.sra0, raw.sdec0, raw.is,
         magConvert raw.mag, raw.xrpm, raw.xdpm⟩

/-- `Equinox`: Besselian or Julian reference frame. -/
inductive Equinox where
  | B1950 : Equinox
  | J2000 : Equinox
deriving DecidableEq, Repr

/-- `IdType`: the kind of star IDs the file contains. -/
inductive IdType where
  | none : IdType
  | seeCatalog : IdType
  | included : IdType
deriving DecidableEq, Repr

/-- `TryFrom<i32> for IdType`: the exact `{0,1,2}` mapping; anything else
is the invalid-stnum error. -/
def IdType.tryFrom (stnum : ℤ) : Except Err IdType :=
  if stnum = 0 then .ok .none
  else if stnum = 1 then .ok .seeCatalog
  else if stnum = 2 then .ok .included
  else .error (.invalidStnum stnum)

/-- Two's-complement wrap of an integer into the i32 range (the behaviour
of overflowing i32 arithmetic in a release build). -/
def i32Wrap (n : ℤ) : ℤ :=
  let r := n % 2 ^ 32
  if r < 2 ^ 31 then r else r - 2 ^ 32

/-- Rust `i32 as usize` on a 64-bit target: sign-extend, then reinterpret
as an unsigned 64-bit value. -/
def usizeOfI32 (v : ℤ) : ℕ := (v % 2 ^ 64).toNat

/-- The `(equinox, nstar)` derivation of `Ybsc::read_from`:
`if starn < 0 { (J2000, (-starn) as usize) } else { (B1950, starn as usize) }`,
with the i32 negation wrapping on overflow. -/
def equinoxCount (starn : ℤ) : Equinox × ℕ :=
  if starn < 0 then (Equinox.J2000, usizeOfI32 (i32Wrap (-starn)))
  else (Equinox.B1950, usizeOfI32 starn)

/-- The decoded catalog: equinox, ID type, proper-motion flag, and the
ordered star list. -/
structure Catalog where
  equinox : Equinox
  id_type : IdType
  have_proper_motion : Bool
  stars : List Star
deriving DecidableEq, Repr

/-- The record loop of `Ybsc::read_from`: decode `n` raw entries in order;
skip entries failing `valid`, convert the others (propagating conversion
failure), and collect the stars in on-disk order. -/
def readEntries : ℕ → List ℕ → Except Err (List Star × List ℕ)
  | 0, s => .ok ([], s)
  | n + 1, s =>
    match RawEntry.read_from s with
    | .error e => .error e
    | .ok (entry, s') =>
      if entry.valid then
        match Star.tryFrom entry with
        | .error e => .error e
        | .ok st =>
          match readEntries n s' with
          | .error e => .error e
          | .ok (stars, s'') => .ok (st :: stars, s'')
      else readEntries n s'

/-- Maximum value of `isize` on a 64-bit target: `2^63 - 1`. -/
def isizeMax : ℕ := 2 ^ 63 - 1

/-- Size in bytes of the in-memory `Star` (`Entry<u32,f32>`):
one `u32` (4) + two `f64` (8 each) + two `char` (4 each) + three `f32`
(4 each) = 40, already a multiple of the 8-byte alignment, so the struct
has no padding under any field order. -/
def starSize : ℕ := 40

/-- Outcome of `Ybsc::read_from` as seen by its caller: either a normal
return (`Ok` with the catalog and the remaining stream, or a propagated
`Err`), or a panic aborting the decode without returning anything.  The
one panic in the decoder is the documented `Vec::with_capacity` capacity
overflow, raised when the requested capacity exceeds `isize::MAX` bytes
(independent of build profile and allocator); it is not a `Result` error
and no catalog or error value is produced. -/
inductive DResult where
  | ret : Except Err (Catalog × List ℕ) → DResult
  | panic : DResult
deriving DecidableEq, Repr

/-- Observer on decode outcomes: `true` exactly when the outcome is a
returned invalid-star-number error. -/
def DResult.isInvalidStarNumber : DResult → Bool
  | .ret (.error (.invalidStarNumber _)) => true
  | _ => false

/-- `Ybsc::read_from`: header, `nbent == 32` check, equinox/count
derivation, `Vec::with_capacity(nstar)` (which panics when
`nstar * size_of::<Star>()` exceeds `isize::MAX`), `stnum → IdType`
conversion, then the record loop — in source order.  The remaining
(unconsumed) stream is returned alongside the catalog, playing the role
of the reader cursor. -/
def Catalog.read_from (s : List ℕ) : DResult :=
  match RawHeader.read_from s with
  | .error e => .ret (.error e)
  | .ok (hdr, s₁) =>
    if hdr.nbent ≠ 32 then .ret (.error (.badEntrySize hdr.nbent))
    else if isizeMax < (equinoxCount hdr.starn).2 * starSize then .panic
    else
      match IdType.tryFrom hdr.stnum with
      | .error e => .ret (.error e)
      | .ok id_type =>
        match readEntries (equinoxCount hdr.starn).2 s₁ with
        | .error e => .ret (.error e)
        | .ok (stars, s₂) =>
          .ret (.ok (⟨(equinoxCount hdr.starn).1, id_type, hdr.mprop, stars⟩, s₂))

/-- Reading `n` raw entries without filtering or conversion: the on-disk
record sequence a stream prefix denotes. -/
def readRawList : ℕ → List ℕ → Except Err (List RawEntry × List ℕ)
  | 0, s => .ok ([], s)
  | n + 1, s =>
    match RawEntry.read_from s with
    | .error e => .error e
    | .ok (entry, s') =>
      match readRawList n s' with
      | .error e => .error e
      | .ok (entries, s'') => .ok (entry :: entries, s'')

/-- A raw entry whose `xno` is not finite or is negative. -/
def badXno (e : RawEntry) : Prop :=
  ¬ f32IsFinite e.xno = true ∨ f32LtZero e.xno = true

instance (e : RawEntry) : Decidable (badXno e) := by
  unfold badXno; infer_instance

/-- Convert a list of raw entries in order, propagating the first
conversion failure: the specification of what the record loop does to
the subsequence of valid records. -/
def tryAll : List RawEntry → Except Err (List Star)
  | [] => .ok []
  | e :: es =>
    match Star.tryFrom e with
    | .error err => .error err
    | .ok st =>
      match tryAll es with
      | .error err => .error err
      | .ok sts => .ok (st :: sts)

/-- Specification of a reader that consumes exactly `k` bytes: on success
the remaining stream is the input minus its first `k` bytes, and the
result is determined by (and only by) that `k`-byte prefix. -/
def RTriple {α : Type} (k : ℕ) (f : List ℕ → Except Err (α × List ℕ)) : Prop :=
  ∀ s v rest, f s = .ok (v, rest) →
    rest = s.drop k ∧ k ≤ s.length ∧ ∀ t, f (s.take k ++ t) = .ok (v, t)

/-! ### Concrete inputs used in witnesses and counterexamples -/

/-- The 28-byte header of the minimal synthetic file: star0 = 0,
star1 = 0, starn = 1, stnum = 0, mprop = 0, nmag = 0, nbent = 32. -/
def hdrBytes9 : List ℕ :=
  [0, 0, 0, 0,  0, 0, 0, 0,  1, 0, 0, 0,  0, 0, 0, 0,
   0, 0, 0, 0,  0, 0, 0, 0,  32, 0, 0, 0]

/-- The 32-byte record of the minimal synthetic file: xno = 42.0f32,
sra0 = 1.5f64, sdec0 = -0.3f64, is = ('O','5'), mag = 350i16,
xrpm = 0.001f32, xdpm = -0.002f32 (all little-endian). -/
def recBytes9 : List ℕ :=
  [0x00, 0x00, 0x28, 0x42,
   0x00, 0x00, 0x00, 0x00, 0x00, 0x00, 0xF8, 0x3F,
   0x33, 0x33, 0x33, 0x33, 0x33, 0x33, 0xD3, 0xBF,
   79, 53,
   94, 1,
   0x6F, 0x12, 0x83, 0x3A,
   0x6F, 0x12, 0x03, 0xBB]

/-- The minimal synthetic catalog file: header plus one record. -/
def file9 : List ℕ := hdrBytes9 ++ recBytes9

/-- The header encoded by `hdrBytes9`. -/
def hdr9 : RawHeader := ⟨0, 0, 1, 0, false, 0, 32⟩

/-- The raw entry encoded by `recBytes9`. -/
def raw9 : RawEntry :=
  ⟨0x42280000, 0x3FF8000000000000, 0xBFD3333333333333, (79, 53), 350,
   0x3A83126F, 0xBB03126F⟩

/-- The star the decoder produces from `raw9`. -/
def star9 : Star :=
  ⟨42, 0x3FF8000000000000, 0xBFD3333333333333, (79, 53), 0x40600000,
   0x3A83126F, 0xBB03126F⟩

/-- The catalog decoded from `file9`. -/
def cat9 : Catalog := ⟨.B1950, .none, false, [star9]⟩

/-- A well-formed non-blank record whose `xno` is -1.0f32: spectral type
('O','5'), every other field zero. -/
def recBytesBad : List ℕ :=
  [0x00, 0x00, 0x80, 0xBF,
   0, 0, 0, 0, 0, 0, 0, 0,
   0, 0, 0, 0, 0, 0, 0, 0,
   79, 53,
   0, 0,
   0, 0, 0, 0,
   0, 0, 0, 0]

/-- The raw entry encoded by `recBytesBad`: `xno` is the bit pattern of
-1.0f32. -/
def rawBad : RawEntry := ⟨0xBF800000, 0, 0, (79, 53), 0, 0, 0⟩

/-- The header of `fileBadXno`: `starn = 2`, `stnum = 0`, `nbent = 32`. -/
def hdrBad : RawHeader := ⟨0, 0, 2, 0, false, 0, 32⟩

/-- A file with a valid header announcing two records, one good record,
then a record with `xno = -1.0`. -/
def fileBadXno : List ℕ :=
  [0, 0, 0, 0,  0, 0, 0, 0,  2, 0, 0, 0,  0, 0, 0, 0,
   0, 0, 0, 0,  0, 0, 0, 0,  32, 0, 0, 0] ++ recBytes9 ++ recBytesBad

/-- A 28-byte header whose `nbent` field is 0. -/
def fileBadNbent : List ℕ := List.replicate 28 0

/-- A 28-byte header with `nbent = 32` but `stnum = 3`. -/
def fileBadStnum : List ℕ :=
  [0, 0, 0, 0,  0, 0, 0, 0,  0, 0, 0, 0,  3, 0, 0, 0,
   0, 0, 0, 0,  0, 0, 0, 0,  32, 0, 0, 0]

/-- A raw entry whose `xno` bit pattern encodes the f32 value `2^32`
(finite and non-negative, but above the u32 range). -/
def rawBig : RawEntry := ⟨0x4F800000, 0, 0, (79, 53), 0, 0, 0⟩

/-- A 28-byte header with `starn = -2^31` (little-endian bytes
`0,0,0,0x80`), `stnum = 3` and `nbent = 32`: the derived record count is
`2^64 - 2^31`, so `Vec::with_capacity` panics. -/
def hdrStnumPanicBytes : List ℕ :=
  [0, 0, 0, 0,  0, 0, 0, 0,  0, 0, 0, 0x80,  3, 0, 0, 0,
   0, 0, 0, 0,  0, 0, 0, 0,  32, 0, 0, 0]

/-- The header encoded by `hdrStnumPanicBytes`. -/
def hdrStnumPanic : RawHeader := ⟨0, 0, -2147483648, 3, false, 0, 32⟩

/-- A 28-byte header with `starn = -2^31`, `stnum = 0` and `nbent = 32`:
well-formed metadata apart from the overflowing derived record count. -/
def hdrXnoPanicBytes : List ℕ :=
  [0, 0, 0, 0,  0, 0, 0, 0,  0, 0, 0, 0x80,  0, 0, 0, 0,
   0, 0, 0, 0,  0, 0, 0, 0,  32, 0, 0, 0]

/-- The header encoded by `hdrXnoPanicBytes`. -/
def hdrXnoPanic : RawHeader := ⟨0, 0, -2147483648, 0, false, 0, 32⟩

/-- A file whose header has `starn = -2^31`, `stnum = 0`, `nbent = 32`,
followed by one non-blank record whose `xno` encodes -1.0f32. -/
def fileXnoPanic : List ℕ := hdrXnoPanicBytes ++ recBytesBad

/-- The record count `2^64 - 2^31` derived from `starn = -2^31`. -/
def bigCount : ℕ := 18446744071562067968

/-- A stream with the `starn = -2^31` header followed by `2^64 - 2^31`
all-zero 32-byte records (each a well-formed, non-blank record). -/
def filePanicBig : List ℕ :=
  hdrXnoPanicBytes ++ List.replicate (32 * bigCount) 0

/-- The raw entry encoded by an all-zero 32-byte record. -/
def rawZero : RawEntry := ⟨0, 0, 0, (0, 0), 0, 0, 0⟩

/-- The star `Star::try_from` produces from `rawZero`. -/
def starZero : Star := ⟨0, 0, 0, (0, 0), 0, 0, 0⟩

/-! ## Reader consumption lemmas -/

theorem readBytes_rtriple (n : ℕ) : RTriple n (readBytes n) := by
  intro s v rest h
  unfold readBytes at h
  by_cases hle : n ≤ s.length
  · rw [if_pos hle] at h
    injection h with h'
    injection h' with hv hr
    subst hv; subst hr
    refine ⟨rfl, hle, fun t => ?_⟩
    have hlen : (s.take n).length = n := by
      simp only [List.length_take]
      omega
    unfold readBytes
    rw [if_pos (by rw [List.length_append, hlen]; omega),
      List.take_left' hlen, List.drop_left' hlen]
  · rw [if_neg hle] at h
    cases h

theorem rtriple_pure {α : Type} (a : α) :
    RTriple 0 (fun s => (.ok (a, s) : Except Err (α × List ℕ))) := by
  intro s v rest h
  injection h with h'
  injection h' with hv hr
  subst hv; subst hr
  exact ⟨(List.drop_zero s).symm, Nat.zero_le _, fun t => by simp⟩

theorem rtriple_pstep {α β : Type} {kf kg : ℕ}
    {f : List ℕ → Except Err (α × List ℕ)}
    {g : α → List ℕ → Except Err (β × List ℕ)}
    (hf : RTriple kf f) (hg : ∀ a, RTriple kg (g a)) :
    RTriple (kf + kg) (pstep f g) := by
  intro s v rest h
  unfold pstep at h
  cases hfs : f s with
  | error e => rw [hfs] at h; cases h
  | ok p =>
    obtain ⟨a, s'⟩ := p
    rw [hfs] at h
    obtain ⟨hs', hlf, hpf⟩ := hf s a s' hfs
    obtain ⟨hrest, hlg, hpg⟩ := hg a s' v rest h
    subst hs'
    refine ⟨?_, ?_, fun t => ?_⟩
    · rw [hrest, List.drop_drop]
    · have := List.length_drop kf s
      omega
    · unfold pstep
      rw [List.take_add, List.append_assoc, hpf ((s.drop kf).take kg ++ t)]
      exact hpg t

theorem read_i16_rtriple : RTriple 2 read_i16 :=
  rtriple_pstep (readBytes_rtriple 2) fun _ => rtriple_pure _

theorem read_i32_rtriple : RTriple 4 read_i32 :=
  rtriple_pstep (readBytes_rtriple 4) fun _ => rtriple_pure _

theorem read_u32_rtriple : RTriple 4 read_u32 :=
  rtriple_pstep (readBytes_rtriple 4) fun _ => rtriple_pure _

theorem read_u64_rtriple : RTriple 8 read_u64 :=
  rtriple_pstep (readBytes_rtriple 8) fun _ => rtriple_pure _

theorem read_f32_rtriple : RTriple 4 read_f32 := read_u32_rtriple

theorem read_f64_rtriple : RTriple 8 read_f64 := read_u64_rtriple

theorem read_char_rtriple : RTriple 1 read_char := by
  show RTriple (1 + 0) read_char
  refine rtriple_pstep (readBytes_rtriple 1) fun bs => ?_
  intro s v rest h
  cases hc : charFromU32 (leNat bs) with
  | some c =>
    rw [hc] at h
    injection h with h'
    injection h' with hv hr
    subst hv; subst hr
    refine ⟨(List.drop_zero s).symm, Nat.zero_le _, fun t => ?_⟩
    simp only [List.take_zero, List.nil_append]
  | none =>
    rw [hc] at h
    cases h

theorem rawHeader_rtriple : RTriple 28 RawHeader.read_from := by
  unfold RawHeader.read_from
  exact rtriple_pstep read_i32_rtriple fun star0 =>
    rtriple_pstep read_i32_rtriple fun star1 =>
    rtriple_pstep read_i32_rtriple fun starn =>
    rtriple_pstep read_i32_rtriple fun stnum =>
    rtriple_pstep read_i32_rtriple fun mpropRaw =>
    rtriple_pstep read_i32_rtriple fun nmag =>
    rtriple_pstep read_i32_rtriple fun nbent =>
    rtriple_pure _

theorem rawEntry_rtriple : RTriple 32 RawEntry.read_from := by
  unfold RawEntry.read_from
  exact rtriple_pstep read_f32_rtriple fun xno =>
    rtriple_pstep read_f64_rtriple fun sra0 =>
    rtriple_pstep read_f64_rtriple fun sdec0 =>
    rtriple_pstep read_char_rtriple fun is0 =>
    rtriple_pstep read_char_rtriple fun is1 =>
    rtriple_pstep read_i16_rtriple fun mag =>
    rtriple_pstep read_f32_rtriple fun xrpm =>
    rtriple_pstep read_f32_rtriple fun xdpm =>
    rtriple_pure _

theorem readEntries_rtriple (n : ℕ) : RTriple (32 * n) (readEntries n) := by
  induction n with
  | zero =>
    intro s v rest h
    injection h with h'
    injection h' with hv hr
    subst hv; subst hr
    exact ⟨(List.drop_zero s).symm, Nat.zero_le _, fun t => by simp [readEntries]⟩
  | succ n ih =>
    intro s v rest h
    rw [show 32 * (n + 1) = 32 + 32 * n by ring]
    rw [readEntries] at h
    cases he : RawEntry.read_from s with
    | error e => rw [he] at h; cases h
    | ok p =>
      obtain ⟨entry, s'⟩ := p
      rw [he] at h
      dsimp only at h
      obtain ⟨hs', hle, hpe⟩ := rawEntry_rtriple s entry s' he
      subst hs'
      by_cases hv : entry.valid = true
      · rw [if_pos hv] at h
        cases ht : Star.tryFrom entry with
        | error e => rw [ht] at h; cases h
        | ok st =>
          rw [ht] at h
          dsimp only at h
          cases hrec : readEntries n (s.drop 32) with
          | error e => rw [hrec] at h; cases h
          | ok q =>
            obtain ⟨stars, s''⟩ := q
            rw [hrec] at h
            dsimp only at h
            injection h with h'
            injection h' with hv' hr'
            subst hv'; subst hr'
            obtain ⟨h1, h2, h3⟩ := ih (s.drop 32) stars s'' hrec
            subst h1
            refine ⟨?_, ?_, fun t => ?_⟩
            · rw [List.drop_drop]
            · have := List.length_drop 32 s
              omega
            · rw [List.take_add, List.append_assoc, readEntries]
              rw [hpe ((s.drop 32).take (32 * n) ++ t)]
              dsimp only
              rw [if_pos hv, ht]
              dsimp only
              rw [h3 t]
      · rw [if_neg hv] at h
        obtain ⟨h1, h2, h3⟩ := ih (s.drop 32) v rest h
        subst h1
        refine ⟨?_, ?_, fun t => ?_⟩
        · rw [List.drop_drop]
        · have := List.length_drop 32 s
          omega
        · rw [List.take_add, List.append_assoc, readEntries]
          rw [hpe ((s.drop 32).take (32 * n) ++ t)]
          dsimp only
          rw [if_neg hv]
          exact h3 t

/-! ## Claim C1 -/

/-- Claim C1 (amended): for every representable i32 value of `starn`
other than `-2^31`, the decoder derives the equinox and record count
from the sign of `starn` exactly as claimed: `starn < 0` gives
`(J2000, -starn)` and `starn ≥ 0` gives `(B1950, starn)`.  At
`starn = -2^31` the i32 negation `-starn` overflows (wrapping back to
`-2^31` in a release build), so the derived count is `2^64 - 2^31`
rather than `-starn`. -/
theorem equinoxCount_sign (starn : ℤ)
    (hlo : -(2 ^ 31) ≤ starn) (hhi : starn < 2 ^ 31) :
    (starn < 0 → starn ≠ -(2 ^ 31) →
      equinoxCount starn = (Equinox.J2000, (-starn).toNat)) ∧
    (0 ≤ starn → equinoxCount starn = (Equinox.B1950, starn.toNat)) := by
  have p31 : (2 : ℤ) ^ 31 = 2147483648 := by norm_num
  rw [p31] at hlo hhi
  constructor
  · intro hneg hne
    rw [p31] at hne
    unfold equinoxCount usizeOfI32 i32Wrap
    rw [if_pos hneg]
    simp only [Prod.mk.injEq, true_and]
    norm_num
    omega
  · intro hpos
    unfold equinoxCount usizeOfI32
    rw [if_neg (by omega)]
    simp only [Prod.mk.injEq, true_and]
    norm_num
    omega

/-- Claim C1 counterexample: at the representable header value
`starn = -2^31`, the derived record count is `2^64 - 2^31`, not
`-starn = 2^31` as the claim requires. -/
theorem equinoxCount_min_int_cex :
    equinoxCount (-2147483648) = (Equinox.J2000, 18446744071562067968) ∧
    (18446744071562067968 : ℕ) ≠ 2147483648 := by
  exact ⟨by decide, by decide⟩

/-- Witness for `equinoxCount_sign` at `starn = -5` and `starn = 7`. -/
theorem equinoxCount_sign_witness :
    equinoxCount (-5) = (Equinox.J2000, 5) ∧
    equinoxCount 7 = (Equinox.B1950, 7) := by
  constructor
  · exact (equinoxCount_sign (-5) (by norm_num) (by norm_num)).1
      (by norm_num) (by norm_num)
  · exact (equinoxCount_sign 7 (by norm_num) (by norm_num)).2 (by norm_num)

/-! ## Claim C6 -/

/-- Claim C6: when the decoded header has `nbent ≠ 32`, decoding fails
with the bad-entry-size error immediately after the 28-byte header: the
same failure results from any continuation of the stream past byte 28,
so no record is ever decoded. -/
theorem read_from_bad_nbent (s : List ℕ) (h : RawHeader) (s₁ : List ℕ)
    (hh : RawHeader.read_from s = .ok (h, s₁)) (hn : h.nbent ≠ 32) :
    Catalog.read_from s = .ret (.error (.badEntrySize h.nbent)) ∧
    ∀ t, Catalog.read_from (s.take 28 ++ t) =
      .ret (.error (.badEntrySize h.nbent)) := by
  obtain ⟨hs₁, hlen, hpre⟩ := rawHeader_rtriple s h s₁ hh
  constructor
  · unfold Catalog.read_from
    rw [hh]
    dsimp only
    rw [if_pos hn]
  · intro t
    unfold Catalog.read_from
    rw [hpre t]
    dsimp only
    rw [if_pos hn]

set_option maxRecDepth 4000 in
/-- Witness for `read_from_bad_nbent`: a 28-byte all-zero header. -/
theorem read_from_bad_nbent_witness :
    Catalog.read_from fileBadNbent = .ret (.error (.badEntrySize 0)) :=
  (read_from_bad_nbent fileBadNbent ⟨0, 0, 0, 0, false, 0, 0⟩ []
    (by with_unfolding_all decide) (by decide)).1

/-! ## Claim C7 -/

/-- Claim C7 (amended): with `nbent = 32`, `stnum` outside `{0,1,2}`,
and a derived record count small enough that the `Vec::with_capacity`
call does not overflow its capacity (at most `isize::MAX` bytes of
`Star`s — true of every header except `starn = -2^31`), the decode fails
with the invalid-stnum error, and the same failure results from any
continuation of the stream past byte offset 28 — the failure is decided
before any record byte is read; moreover `stnum` values 0, 1, 2 map
exactly to IdType `none`, `seeCatalog`, `included`.  At `starn = -2^31`
the capacity computation panics before the stnum conversion is reached. -/
theorem read_from_bad_stnum (s : List ℕ) (h : RawHeader) (s₁ : List ℕ)
    (hh : RawHeader.read_from s = .ok (h, s₁)) (hn : h.nbent = 32)
    (hcap : ¬ isizeMax < (equinoxCount h.starn).2 * starSize)
    (h0 : h.stnum ≠ 0) (h1 : h.stnum ≠ 1) (h2 : h.stnum ≠ 2) :
    (Catalog.read_from s = .ret (.error (.invalidStnum h.stnum)) ∧
      ∀ t, Catalog.read_from (s.take 28 ++ t) =
        .ret (.error (.invalidStnum h.stnum))) ∧
    IdType.tryFrom 0 = .ok .none ∧ IdType.tryFrom 1 = .ok .seeCatalog ∧
      IdType.tryFrom 2 = .ok .included := by
  obtain ⟨hs₁, hlen, hpre⟩ := rawHeader_rtriple s h s₁ hh
  have hid : IdType.tryFrom h.stnum = .error (.invalidStnum h.stnum) := by
    unfold IdType.tryFrom
    rw [if_neg h0, if_neg h1, if_neg h2]
  have hnn : ¬h.nbent ≠ 32 := fun hc => hc hn
  refine ⟨⟨?_, fun t => ?_⟩, by decide, by decide, by decide⟩
  · unfold Catalog.read_from
    rw [hh]
    dsimp only
    rw [if_neg hnn, if_neg hcap, hid]
  · unfold Catalog.read_from
    rw [hpre t]
    dsimp only
    rw [if_neg hnn, if_neg hcap, hid]

set_option maxRecDepth 4000 in
/-- Witness for `read_from_bad_stnum`: a header with `stnum = 3`,
`nbent = 32`, and nothing after the header. -/
theorem read_from_bad_stnum_witness :
    Catalog.read_from fileBadStnum = .ret (.error (.invalidStnum 3)) :=
  ((read_from_bad_stnum fileBadStnum ⟨0, 0, 0, 3, false, 0, 32⟩ []
    (by with_unfolding_all decide) rfl (by decide) (by decide) (by decide)
    (by decide)).1).1

/-! ## Claim C10 -/

/-- Claim C10: every byte value 0–255 is a valid Unicode scalar value,
so the invalid-char branch of `read_char` is unreachable: on a stream of
bytes, `read_char` can fail only with the truncation error. -/
theorem read_char_no_invalidChar :
    (∀ b : ℕ, b < 256 → charFromU32 b = some b) ∧
    (∀ (s : List ℕ) (e : Err), (∀ x ∈ s, x < 256) →
      read_char s = .error e → e = .truncated) := by
  have hc : ∀ b : ℕ, b < 256 → charFromU32 b = some b := by
    intro b hb
    unfold charFromU32
    rw [if_pos (Or.inl (by omega))]
  refine ⟨hc, fun s e hwf h => ?_⟩
  cases s with
  | nil =>
    unfold read_char pstep readBytes at h
    rw [if_neg (by simp)] at h
    dsimp only at h
    injection h with h'
    exact h'.symm
  | cons b s' =>
    have hb : b < 256 := hwf b (List.mem_cons_self b s')
    unfold read_char pstep at h
    have h1 : readBytes 1 (b :: s') = .ok ([b], s') := by
      unfold readBytes
      rw [if_pos (by simp)]
      rfl
    rw [h1] at h
    dsimp only at h
    have hlb : leNat [b] = b := by simp [leNat]
    rw [hlb, hc b hb] at h
    cases h

/-- Witness for `read_char_no_invalidChar`: byte 65, and the truncation
failure on the empty stream. -/
theorem read_char_no_invalidChar_witness :
    charFromU32 65 = some 65 ∧ Err.truncated = Err.truncated := by
  constructor
  · exact read_char_no_invalidChar.1 65 (by norm_num)
  · exact read_char_no_invalidChar.2 [] Err.truncated (by simp) (by decide)

/-! ## Reading concrete byte prefixes -/

theorem readBytes_exact (bs t : List ℕ) :
    readBytes bs.length (bs ++ t) = .ok (bs, t) := by
  unfold readBytes
  rw [if_pos (by simp), List.take_left, List.drop_left]

theorem read_u32_concrete (a b c d : ℕ) (t : List ℕ) :
    read_u32 ([a, b, c, d] ++ t) = .ok (leNat [a, b, c, d], t) := by
  unfold read_u32 pstep
  rw [show readBytes 4 ([a, b, c, d] ++ t) = .ok ([a, b, c, d], t) from
    readBytes_exact [a, b, c, d] t]

theorem read_i32_concrete (a b c d : ℕ) (t : List ℕ) :
    read_i32 ([a, b, c, d] ++ t) = .ok (toSigned 32 (leNat [a, b, c, d]), t) := by
  unfold read_i32 pstep
  rw [show readBytes 4 ([a, b, c, d] ++ t) = .ok ([a, b, c, d], t) from
    readBytes_exact [a, b, c, d] t]

theorem read_i16_concrete (a b : ℕ) (t : List ℕ) :
    read_i16 ([a, b] ++ t) = .ok (toSigned 16 (leNat [a, b]), t) := by
  unfold read_i16 pstep
  rw [show readBytes 2 ([a, b] ++ t) = .ok ([a, b], t) from
    readBytes_exact [a, b] t]

theorem read_f32_concrete (a b c d : ℕ) (t : List ℕ) :
    read_f32 ([a, b, c, d] ++ t) = .ok (leNat [a, b, c, d], t) :=
  read_u32_concrete a b c d t

theorem read_f64_concrete (a b c d e f g h : ℕ) (t : List ℕ) :
    read_f64 ([a, b, c, d, e, f, g, h] ++ t) =
      .ok (leNat [a, b, c, d, e, f, g, h], t) := by
  unfold read_f64 read_u64 pstep
  rw [show readBytes 8 ([a, b, c, d, e, f, g, h] ++ t) =
    .ok ([a, b, c, d, e, f, g, h], t) from
    readBytes_exact [a, b, c, d, e, f, g, h] t]

theorem read_char_concrete (c : ℕ) (hc : c < 0xD800) (t : List ℕ) :
    read_char ([c] ++ t) = .ok (c, t) := by
  unfold read_char pstep
  rw [show readBytes 1 ([c] ++ t) = .ok ([c], t) from readBytes_exact [c] t]
  dsimp only
  have hl : leNat [c] = c := by simp [leNat]
  rw [hl, show charFromU32 c = some c from by
    unfold charFromU32; rw [if_pos (Or.inl hc)]]

/-! ## Concrete evaluations shared by several claims -/

theorem evalHeader9 : RawHeader.read_from file9 = .ok (hdr9, recBytes9) := by
  have hsplit : file9 =
      [0, 0, 0, 0] ++ ([0, 0, 0, 0] ++ ([1, 0, 0, 0] ++ ([0, 0, 0, 0] ++
        ([0, 0, 0, 0] ++ ([0, 0, 0, 0] ++ ([32, 0, 0, 0] ++ recBytes9)))))) := by
    rfl
  rw [hsplit]
  unfold RawHeader.read_from
  simp only [pstep]
  rw [read_i32_concrete]
  dsimp only
  rw [read_i32_concrete]
  dsimp only
  rw [read_i32_concrete]
  dsimp only
  rw [read_i32_concrete]
  dsimp only
  rw [read_i32_concrete]
  dsimp only
  rw [read_i32_concrete]
  dsimp only
  rw [read_i32_concrete]
  dsimp only
  decide

set_option maxRecDepth 2000 in
theorem evalEntry9 : RawEntry.read_from recBytes9 = .ok (raw9, []) := by
  have hsplit : recBytes9 =
      [0x00, 0x00, 0x28, 0x42] ++
        ([0x00, 0x00, 0x00, 0x00, 0x00, 0x00, 0xF8, 0x3F] ++
          ([0x33, 0x33, 0x33, 0x33, 0x33, 0x33, 0xD3, 0xBF] ++
            ([79] ++ ([53] ++ ([94, 1] ++
              ([0x6F, 0x12, 0x83, 0x3A] ++
                ([0x6F, 0x12, 0x03, 0xBB] ++ ([] : List ℕ)))))))) := by
    rfl
  rw [hsplit]
  unfold RawEntry.read_from
  simp only [pstep]
  rw [read_f32_concrete]
  dsimp only
  rw [read_f64_concrete]
  dsimp only
  rw [read_f64_concrete]
  dsimp only
  rw [read_char_concrete 79 (by norm_num)]
  dsimp only
  rw [read_char_concrete 53 (by norm_num)]
  dsimp only
  rw [read_i16_concrete]
  dsimp only
  rw [read_f32_concrete]
  dsimp only
  rw [read_f32_concrete]
  dsimp only
  decide

theorem evalMag350 : magConvert 350 = 0x40600000 := by
  with_unfolding_all decide

theorem evalTryFrom9 : Star.tryFrom raw9 = .ok star9 := by
  unfold Star.tryFrom
  rw [if_neg (by decide)]
  rw [show f32AsU32 raw9.xno = 42 from by decide]
  rw [show magConvert raw9.mag = 0x40600000 from evalMag350]
  rfl

theorem evalEntries9 : readEntries 1 recBytes9 = .ok ([star9], []) := by
  rw [show (1 : ℕ) = 0 + 1 from rfl, readEntries, evalEntry9]
  dsimp only
  rw [if_pos (by decide), evalTryFrom9]
  dsimp only
  rw [show readEntries 0 [] = .ok ([], []) from rfl]

theorem evalFile9 : Catalog.read_from file9 = .ret (.ok (cat9, [])) := by
  unfold Catalog.read_from
  rw [evalHeader9]
  dsimp only
  rw [if_neg (by decide), if_neg (by decide)]
  rw [show IdType.tryFrom hdr9.stnum = .ok .none from by decide]
  dsimp only
  rw [show (equinoxCount hdr9.starn).2 = 1 from by decide]
  rw [evalEntries9]
  dsimp only
  rw [show (equinoxCount hdr9.starn).1 = .B1950 from by decide]
  rfl

/-! ## Claim C9 -/

/-- Claim C9: decoding the minimal synthetic file — a header encoding
star0 = 0, star1 = 0, starn = 1, stnum = 0, mprop = 0, nmag = 0,
nbent = 32, followed by one record encoding xno = 42.0f32, sra0 = 1.5f64,
sdec0 = -0.3f64, is = ('O','5'), mag = 350i16, xrpm = 0.001f32,
xdpm = -0.002f32 — yields a catalog with equinox B1950, id_type None,
have_proper_motion false, and exactly one star with xno = 42, the f64
and f32 pass-through fields unchanged, and mag = 3.5 (the f32 bit
pattern whose exact value is 7/2; the sra0 pattern has exact value
3/2). -/
theorem read_from_file9 :
    Catalog.read_from file9 = .ret (.ok (cat9, [])) ∧
    cat9 = ⟨.B1950, .none, false, [star9]⟩ ∧
    star9.xno = 42 ∧ star9.is = (79, 53) ∧
    f32ToRat star9.mag = 7 / 2 ∧ f64ToRat star9.sra0 = 3 / 2 ∧
    star9.sra0 = 0x3FF8000000000000 ∧ star9.sdec0 = 0xBFD3333333333333 ∧
    star9.xrpm = 0x3A83126F ∧ star9.xdpm = 0xBB03126F := by
  refine ⟨evalFile9, rfl, rfl, rfl, ?_, ?_, rfl, rfl, rfl, rfl⟩
  · with_unfolding_all decide
  · with_unfolding_all decide

/-! ## Claim C4 -/

/-- The Bool guard `x < 0.0` as a proposition. -/
theorem f32LtZero_iff (b : ℕ) : f32LtZero b = true ↔
    ((f32Expo b ≠ 255 ∨ f32Mant b = 0) ∧ f32Sign b = 1 ∧
      ¬(f32Expo b = 0 ∧ f32Mant b = 0)) := by
  unfold f32LtZero
  simp only [Bool.and_eq_true, Bool.or_eq_true, bne_iff_ne, beq_iff_eq,
    Bool.not_eq_true', Bool.and_eq_false_iff, beq_eq_false_iff_ne, ne_eq]
  tauto

/-- Under the guard of `Star::try_from` (finite, not below zero), the Rust
`as u32` cast is the truncation toward zero capped at `u32::MAX`. -/
theorem f32AsU32_eq_min (b : ℕ) (hf : f32IsFinite b = true)
    (hl : f32LtZero b = false) :
    f32AsU32 b = min (f32TruncPos b) (2 ^ 32 - 1) := by
  have hexpo : f32Expo b ≠ 255 := by
    simpa [f32IsFinite] using hf
  unfold f32AsU32
  rw [if_neg (fun hc => hexpo hc.1)]
  by_cases hs : f32Sign b = 1
  · rw [if_pos hs]
    have hzero : f32Expo b = 0 ∧ f32Mant b = 0 := by
      by_contra hc
      have : f32LtZero b = true := (f32LtZero_iff b).mpr ⟨Or.inl hexpo, hs, hc⟩
      rw [this] at hl
      cases hl
    unfold f32TruncPos
    rw [if_pos hzero.1]
    simp
  · rw [if_neg hs, if_neg hexpo]

/-- Claim C4 (amended): for every raw entry whose `xno` is finite and not
below zero, the conversion to `Star` succeeds, and the resulting u32
catalog number is `xno` truncated toward zero *saturated at
`u32::MAX = 2^32 - 1`* (Rust `as` casts saturate); for `xno ≥ 2^32` the
result is `2^32 - 1`, not the truncation itself. -/
theorem tryFrom_finite_nonneg (raw : RawEntry)
    (hf : f32IsFinite raw.xno = true) (hl : f32LtZero raw.xno = false) :
    Star.tryFrom raw = .ok ⟨min (f32TruncPos raw.xno) (2 ^ 32 - 1), raw.sra0,
      raw.sdec0, raw.is, magConvert raw.mag, raw.xrpm, raw.xdpm⟩ := by
  unfold Star.tryFrom
  rw [if_neg (by simp [hf, hl])]
  rw [f32AsU32_eq_min raw.xno hf hl]

/-- Claim C4 counterexample: the raw entry `rawBig` has `xno` encoding
the f32 value `2^32` (finite, non-negative), the conversion succeeds,
but the resulting catalog number is `2^32 - 1` while truncation toward
zero of `xno` is `2^32` — the claimed equality fails. -/
theorem tryFrom_trunc_cex :
    Star.tryFrom rawBig = .ok ⟨4294967295, 0, 0, (79, 53), 0, 0, 0⟩ ∧
    f32TruncPos rawBig.xno = 4294967296 ∧ (4294967295 : ℕ) ≠ 4294967296 := by
  refine ⟨?_, by decide, by decide⟩
  unfold Star.tryFrom
  rw [if_neg (by decide)]
  rw [show f32AsU32 rawBig.xno = 4294967295 from by decide]
  rw [show magConvert rawBig.mag = 0 from by with_unfolding_all decide]
  rfl

/-- Witness for `tryFrom_finite_nonneg` at the concrete entry `raw9`
(whose `xno` encodes 42.0). -/
theorem tryFrom_finite_nonneg_witness :
    Star.tryFrom raw9 = .ok ⟨min (f32TruncPos raw9.xno) (2 ^ 32 - 1),
      raw9.sra0, raw9.sdec0, raw9.is, magConvert raw9.mag, raw9.xrpm,
      raw9.xdpm⟩ :=
  tryFrom_finite_nonneg raw9 (by decide) (by decide)

/-! ## Structure of the record loop: filtering and failure -/

theorem tryFrom_bad (e : RawEntry) (hb : badXno e) :
    Star.tryFrom e = .error (.invalidStarNumber e.xno) := by
  unfold Star.tryFrom
  rcases hb with hb | hb
  · have hff : f32IsFinite e.xno = false := by
      revert hb
      cases f32IsFinite e.xno <;> simp
    rw [if_pos (by simp [hff])]
  · rw [if_pos (by simp [hb])]

theorem tryFrom_good (e : RawEntry) (hg : ¬badXno e) :
    ∃ st, Star.tryFrom e = .ok st := by
  unfold badXno at hg
  push_neg at hg
  obtain ⟨h1, h2⟩ := hg
  unfold Star.tryFrom
  rw [if_neg (by simp [h1, h2])]
  exact ⟨_, rfl⟩

theorem tryFrom_is (e : RawEntry) (st : Star)
    (h : Star.tryFrom e = .ok st) : st.is = e.is := by
  unfold Star.tryFrom at h
  split at h
  · cases h
  · injection h with h'
    subst h'
    rfl

theorem valid_is_ne (e : RawEntry) (hv : e.valid = true) : e.is ≠ (32, 32) := by
  intro his
  unfold Entry.valid at hv
  rw [his] at hv
  exact absurd hv (by decide)

theorem blank_eq_not_valid (e : RawEntry) : (e.is == (32, 32)) = !e.valid := by
  have hbeq : (e.is == (32, 32)) = (e.is.1 == 32 && e.is.2 == 32) := rfl
  rw [hbeq]
  unfold Entry.valid
  rw [Bool.not_or]
  simp [bne]

theorem filter_valid_length (l : List RawEntry) :
    (l.filter fun e => e.valid).length =
      l.length - (l.filter fun e => e.is == (32, 32)).length := by
  induction l with
  | nil => rfl
  | cons e es ih =>
    have hb := List.length_filter_le (fun e : RawEntry => e.is == (32, 32)) es
    rw [List.filter_cons, List.filter_cons, blank_eq_not_valid]
    by_cases hv : e.valid = true
    · rw [if_pos hv, if_neg (by simp [hv])]
      simp only [List.length_cons]
      omega
    · have hv' : e.valid = false := by
        revert hv
        cases e.valid <;> simp
      rw [if_neg (by simp [hv']), if_pos (by simp [hv'])]
      simp only [List.length_cons]
      omega

theorem tryAll_length (l : List RawEntry) :
    ∀ sts : List Star, tryAll l = .ok sts → sts.length = l.length := by
  induction l with
  | nil =>
    intro sts h
    injection h with h'
    subst h'
    rfl
  | cons e es ih =>
    intro sts h
    rw [tryAll] at h
    cases ht : Star.tryFrom e with
    | error er => rw [ht] at h; cases h
    | ok st =>
      rw [ht] at h
      dsimp only at h
      cases hre : tryAll es with
      | error er => rw [hre] at h; cases h
      | ok sts2 =>
        rw [hre] at h
        dsimp only at h
        injection h with h'
        subst h'
        simp [ih sts2 hre]

theorem tryAll_is_ne (l : List RawEntry) :
    ∀ sts : List Star, (∀ e ∈ l, e.valid = true) → tryAll l = .ok sts →
      ∀ st ∈ sts, st.is ≠ (32, 32) := by
  induction l with
  | nil =>
    intro sts _ h
    injection h with h'
    subst h'
    intro st hst
    exact absurd hst (List.not_mem_nil st)
  | cons e es ih =>
    intro sts hl h
    rw [tryAll] at h
    cases ht : Star.tryFrom e with
    | error er => rw [ht] at h; cases h
    | ok st =>
      rw [ht] at h
      dsimp only at h
      cases hre : tryAll es with
      | error er => rw [hre] at h; cases h
      | ok sts2 =>
        rw [hre] at h
        dsimp only at h
        injection h with h'
        subst h'
        intro st' hmem
        rcases List.mem_cons.mp hmem with rfl | hm2
        · rw [tryFrom_is e st' ht]
          exact valid_is_ne e (hl e (List.mem_cons_self e es))
        · exact ih sts2 (fun x hx => hl x (List.mem_cons_of_mem e hx)) hre st' hm2

theorem readRawList_length (n : ℕ) :
    ∀ (s : List ℕ) (raws : List RawEntry) (rest' : List ℕ),
      readRawList n s = .ok (raws, rest') → raws.length = n := by
  induction n with
  | zero =>
    intro s raws rest' h
    injection h with h'
    injection h' with h1 h2
    subst h1
    rfl
  | succ n ih =>
    intro s raws rest' h
    rw [readRawList] at h
    cases he : RawEntry.read_from s with
    | error e => rw [he] at h; cases h
    | ok p =>
      obtain ⟨entry, s'⟩ := p
      rw [he] at h
      dsimp only at h
      cases hrl : readRawList n s' with
      | error e => rw [hrl] at h; cases h
      | ok q =>
        obtain ⟨raws2, r2⟩ := q
        rw [hrl] at h
        dsimp only at h
        injection h with h'
        injection h' with h1 h2
        subst h1
        simp [ih s' raws2 r2 hrl]

theorem readEntries_filter (n : ℕ) :
    ∀ (s : List ℕ) (stars : List Star) (rest : List ℕ)
      (raws : List RawEntry) (rest' : List ℕ),
      readEntries n s = .ok (stars, rest) →
      readRawList n s = .ok (raws, rest') →
      rest' = rest ∧ tryAll (raws.filter fun e => e.valid) = .ok stars := by
  induction n with
  | zero =>
    intro s stars rest raws rest' hs hr
    injection hs with hs'
    injection hs' with a1 a2
    injection hr with hr'
    injection hr' with b1 b2
    subst a1
    subst a2
    subst b1
    subst b2
    exact ⟨rfl, rfl⟩
  | succ n ih =>
    intro s stars rest raws rest' hs hr
    rw [readEntries] at hs
    rw [readRawList] at hr
    cases he : RawEntry.read_from s with
    | error e => rw [he] at hs; cases hs
    | ok p =>
      obtain ⟨entry, s'⟩ := p
      rw [he] at hs hr
      dsimp only at hs hr
      cases hrl : readRawList n s' with
      | error e => rw [hrl] at hr; cases hr
      | ok q =>
        obtain ⟨raws2, r2⟩ := q
        rw [hrl] at hr
        dsimp only at hr
        injection hr with hr'
        injection hr' with b1 b2
        subst b1
        subst b2
        by_cases hv : entry.valid = true
        · rw [if_pos hv] at hs
          cases ht : Star.tryFrom entry with
          | error e => rw [ht] at hs; cases hs
          | ok st =>
            rw [ht] at hs
            dsimp only at hs
            cases hre : readEntries n s' with
            | error e => rw [hre] at hs; cases hs
            | ok q2 =>
              obtain ⟨stars2, rr⟩ := q2
              rw [hre] at hs
              dsimp only at hs
              injection hs with hs'
              injection hs' with a1 a2
              subst a1
              subst a2
              obtain ⟨hrest, htry⟩ := ih s' stars2 rr raws2 r2 hre hrl
              refine ⟨hrest, ?_⟩
              rw [List.filter_cons, if_pos (by simp [hv])]
              rw [tryAll, ht]
              dsimp only
              rw [htry]
        · rw [if_neg hv] at hs
          obtain ⟨hrest, htry⟩ := ih s' stars rest raws2 r2 hs hrl
          refine ⟨hrest, ?_⟩
          rw [List.filter_cons, if_neg (by simp [hv])]
          exact htry

theorem readEntries_bad (n : ℕ) :
    ∀ (s : List ℕ) (raws : List RawEntry) (rest' : List ℕ),
      readRawList n s = .ok (raws, rest') →
      (∃ e ∈ raws, e.valid = true ∧ badXno e) →
      ∃ b, readEntries n s = .error (.invalidStarNumber b) := by
  induction n with
  | zero =>
    intro s raws rest' hr hbad
    injection hr with hr'
    injection hr' with h1 h2
    subst h1
    obtain ⟨e, he, _⟩ := hbad
    exact absurd he (List.not_mem_nil e)
  | succ n ih =>
    intro s raws rest' hr hbad
    rw [readRawList] at hr
    cases he : RawEntry.read_from s with
    | error e => rw [he] at hr; cases hr
    | ok p =>
      obtain ⟨entry, s'⟩ := p
      rw [he] at hr
      dsimp only at hr
      cases hrl : readRawList n s' with
      | error e => rw [hrl] at hr; cases hr
      | ok q =>
        obtain ⟨raws2, r2⟩ := q
        rw [hrl] at hr
        dsimp only at hr
        injection hr with hr'
        injection hr' with h1 h2
        subst h1
        subst h2
        by_cases hv : entry.valid = true
        · by_cases hb : badXno entry
          · refine ⟨entry.xno, ?_⟩
            rw [readEntries, he]
            dsimp only
            rw [if_pos hv, tryFrom_bad entry hb]
          · have hbad2 : ∃ e ∈ raws2, e.valid = true ∧ badXno e := by
              obtain ⟨e, hmem, hev, heb⟩ := hbad
              rcases List.mem_cons.mp hmem with rfl | hm2
              · exact absurd heb hb
              · exact ⟨e, hm2, hev, heb⟩
            obtain ⟨b, hbres⟩ := ih s' raws2 r2 hrl hbad2
            obtain ⟨st, hst⟩ := tryFrom_good entry hb
            refine ⟨b, ?_⟩
            rw [readEntries, he]
            dsimp only
            rw [if_pos hv, hst]
            dsimp only
            rw [hbres]
        · have hbad2 : ∃ e ∈ raws2, e.valid = true ∧ badXno e := by
            obtain ⟨e, hmem, hev, heb⟩ := hbad
            rcases List.mem_cons.mp hmem with rfl | hm2
            · exact absurd hev hv
            · exact ⟨e, hm2, hev, heb⟩
          obtain ⟨b, hbres⟩ := ih s' raws2 r2 hrl hbad2
          refine ⟨b, ?_⟩
          rw [readEntries, he]
          dsimp only
          rw [if_neg hv]
          exact hbres

/-! ## More concrete evaluations -/

theorem evalRawList9 : readRawList 1 recBytes9 = .ok ([raw9], []) := by
  rw [show (1 : ℕ) = 0 + 1 from rfl, readRawList, evalEntry9]
  dsimp only
  rw [show readRawList 0 [] = .ok ([], []) from rfl]

theorem evalHeaderBadXno :
    RawHeader.read_from fileBadXno = .ok (hdrBad, recBytes9 ++ recBytesBad) := by
  have hsplit : fileBadXno =
      [0, 0, 0, 0] ++ ([0, 0, 0, 0] ++ ([2, 0, 0, 0] ++ ([0, 0, 0, 0] ++
        ([0, 0, 0, 0] ++ ([0, 0, 0, 0] ++ ([32, 0, 0, 0] ++
          (recBytes9 ++ recBytesBad))))))) := by
    rfl
  rw [hsplit]
  unfold RawHeader.read_from
  simp only [pstep]
  rw [read_i32_concrete]
  dsimp only
  rw [read_i32_concrete]
  dsimp only
  rw [read_i32_concrete]
  dsimp only
  rw [read_i32_concrete]
  dsimp only
  rw [read_i32_concrete]
  dsimp only
  rw [read_i32_concrete]
  dsimp only
  rw [read_i32_concrete]
  dsimp only
  decide

set_option maxRecDepth 2000 in
theorem evalEntryBad : RawEntry.read_from recBytesBad = .ok (rawBad, []) := by
  have hsplit : recBytesBad =
      [0x00, 0x00, 0x80, 0xBF] ++
        ([0, 0, 0, 0, 0, 0, 0, 0] ++
          ([0, 0, 0, 0, 0, 0, 0, 0] ++
            ([79] ++ ([53] ++ ([0, 0] ++
              ([0, 0, 0, 0] ++ ([0, 0, 0, 0] ++ ([] : List ℕ)))))))) := by
    rfl
  rw [hsplit]
  unfold RawEntry.read_from
  simp only [pstep]
  rw [read_f32_concrete]
  dsimp only
  rw [read_f64_concrete]
  dsimp only
  rw [read_f64_concrete]
  dsimp only
  rw [read_char_concrete 79 (by norm_num)]
  dsimp only
  rw [read_char_concrete 53 (by norm_num)]
  dsimp only
  rw [read_i16_concrete]
  dsimp only
  rw [read_f32_concrete]
  dsimp only
  rw [read_f32_concrete]
  dsimp only
  decide

theorem evalEntry9Pre :
    RawEntry.read_from (recBytes9 ++ recBytesBad) = .ok (raw9, recBytesBad) := by
  obtain ⟨_, _, hpre⟩ := rawEntry_rtriple recBytes9 raw9 [] evalEntry9
  have h := hpre recBytesBad
  rwa [show recBytes9.take 32 = recBytes9 from rfl] at h

theorem evalRawList2 :
    readRawList 2 (recBytes9 ++ recBytesBad) = .ok ([raw9, rawBad], []) := by
  rw [show (2 : ℕ) = 1 + 1 from rfl, readRawList, evalEntry9Pre]
  dsimp only
  rw [show (1 : ℕ) = 0 + 1 from rfl, readRawList, evalEntryBad]
  dsimp only
  rw [show readRawList 0 [] = .ok ([], []) from rfl]

/-! ## Claim C2 -/

/-- Claim C2: whenever a decode succeeds and the stream's on-disk records
are `raws`, the output stars contain no record with blank spectral type
`(' ',' ')`, there are exactly `R` on-disk records, the output length is
`R` minus the number of blank records, and the output is exactly the
in-order conversion of the non-blank records (so output order is on-disk
order restricted to the filter). -/
theorem read_from_filters_blanks (s : List ℕ) (h : RawHeader) (s₁ : List ℕ)
    (y : Catalog) (rest : List ℕ) (raws : List RawEntry) (rest' : List ℕ)
    (hh : RawHeader.read_from s = .ok (h, s₁))
    (hy : Catalog.read_from s = .ret (.ok (y, rest)))
    (hr : readRawList (equinoxCount h.starn).2 s₁ = .ok (raws, rest')) :
    (∀ st ∈ y.stars, st.is ≠ (32, 32)) ∧
    raws.length = (equinoxCount h.starn).2 ∧
    y.stars.length =
      raws.length - (raws.filter fun e => e.is == (32, 32)).length ∧
    tryAll (raws.filter fun e => e.valid) = .ok y.stars := by
  unfold Catalog.read_from at hy
  rw [hh] at hy
  dsimp only at hy
  by_cases hn : h.nbent ≠ 32
  · rw [if_pos hn] at hy
    simp at hy
  · rw [if_neg hn] at hy
    by_cases hcap : isizeMax < (equinoxCount h.starn).2 * starSize
    · rw [if_pos hcap] at hy
      cases hy
    · rw [if_neg hcap] at hy
      cases hit : IdType.tryFrom h.stnum with
      | error e => rw [hit] at hy; simp at hy
      | ok k =>
        rw [hit] at hy
        dsimp only at hy
        cases hre : readEntries (equinoxCount h.starn).2 s₁ with
        | error e => rw [hre] at hy; simp at hy
        | ok q =>
          obtain ⟨stars, s₂⟩ := q
          rw [hre] at hy
          dsimp only at hy
          injection hy with hy₀
          injection hy₀ with hy'
          injection hy' with hy1 hy2
          subst hy2
          obtain ⟨hrest, htry⟩ := readEntries_filter _ _ _ _ _ _ hre hr
          have hystars : y.stars = stars := by rw [← hy1]
          rw [hystars]
          have hlen := readRawList_length _ _ _ _ hr
          have htal := tryAll_length _ _ htry
          refine ⟨?_, hlen, ?_, htry⟩
          · exact tryAll_is_ne _ _ (fun e he => List.of_mem_filter he) htry
          · rw [htal, filter_valid_length]

/-- Witness for `read_from_filters_blanks` at the one-record file
`file9`. -/
theorem read_from_filters_blanks_witness :
    (∀ st ∈ cat9.stars, st.is ≠ (32, 32)) ∧
    ([raw9] : List RawEntry).length = (equinoxCount hdr9.starn).2 ∧
    cat9.stars.length =
      ([raw9] : List RawEntry).length -
        (([raw9] : List RawEntry).filter fun e => e.is == (32, 32)).length ∧
    tryAll (([raw9] : List RawEntry).filter fun e => e.valid) =
      .ok cat9.stars :=
  read_from_filters_blanks file9 hdr9 recBytes9 cat9 [] [raw9] []
    evalHeader9 evalFile9
    (by rw [show (equinoxCount hdr9.starn).2 = 1 from by decide]
        exact evalRawList9)

/-! ## Claim C3 -/

/-- Claim C3 (amended): if the stream has a well-formed header
(`nbent = 32`, `stnum` in the table) whose derived record count does not
overflow the `Vec::with_capacity` call (at most `isize::MAX` bytes of
`Star`s — true of every header except `starn = -2^31`), and among its
on-disk records some record passing the validity filter has a non-finite
or negative `xno`, the whole decode fails with an invalid-star-number
error — no catalog is returned, even when earlier records were valid.
At `starn = -2^31` the capacity computation panics before any record is
read, so no invalid-star-number error is produced there. -/
theorem read_from_bad_xno (s : List ℕ) (h : RawHeader) (s₁ : List ℕ)
    (raws : List RawEntry) (rest' : List ℕ) (k : IdType)
    (hh : RawHeader.read_from s = .ok (h, s₁)) (hn : h.nbent = 32)
    (hcap : ¬ isizeMax < (equinoxCount h.starn).2 * starSize)
    (hk : IdType.tryFrom h.stnum = .ok k)
    (hr : readRawList (equinoxCount h.starn).2 s₁ = .ok (raws, rest'))
    (hbad : ∃ e ∈ raws, e.valid = true ∧ badXno e) :
    ∃ b, Catalog.read_from s = .ret (.error (.invalidStarNumber b)) := by
  obtain ⟨b, hb⟩ := readEntries_bad _ _ _ _ hr hbad
  refine ⟨b, ?_⟩
  unfold Catalog.read_from
  rw [hh]
  dsimp only
  rw [if_neg (fun hc => hc hn), if_neg hcap, hk]
  dsimp only
  rw [hb]

/-- Witness for `read_from_bad_xno`: a file with one good record followed
by a valid record whose `xno` encodes -1.0. -/
theorem read_from_bad_xno_witness :
    ∃ b, Catalog.read_from fileBadXno = .ret (.error (.invalidStarNumber b)) :=
  read_from_bad_xno fileBadXno hdrBad (recBytes9 ++ recBytesBad)
    [raw9, rawBad] [] .none
    evalHeaderBadXno rfl (by decide) (by decide)
    (by rw [show (equinoxCount hdrBad.starn).2 = 2 from by decide]
        exact evalRawList2)
    ⟨rawBad, by decide, by decide, by decide⟩

/-! ## Claim C8 -/

/-- Claim C8 (amended): when decoding returns successfully, with `R` the
record count derived from the header, exactly `28 + 32·R` bytes of the
stream are consumed — the remaining stream is the input minus that
prefix, the input is at least that long, and decoding the consumed
prefix followed by any other continuation yields the same catalog (the
result does not depend on bytes past the prefix).  The success proviso
cannot be dropped: at `starn = -2^31` the decode panics in
`Vec::with_capacity` after consuming only the 28 header bytes, however
many well-formed records follow. -/
theorem read_from_consumes (s : List ℕ) (h : RawHeader) (s₁ : List ℕ)
    (y : Catalog) (rest : List ℕ)
    (hh : RawHeader.read_from s = .ok (h, s₁))
    (hy : Catalog.read_from s = .ret (.ok (y, rest))) :
    rest = s.drop (28 + 32 * (equinoxCount h.starn).2) ∧
    28 + 32 * (equinoxCount h.starn).2 ≤ s.length ∧
    ∀ t, Catalog.read_from (s.take (28 + 32 * (equinoxCount h.starn).2) ++ t) =
      .ret (.ok (y, t)) := by
  obtain ⟨hs₁, hlen28, hpre⟩ := rawHeader_rtriple s h s₁ hh
  subst hs₁
  unfold Catalog.read_from at hy
  rw [hh] at hy
  dsimp only at hy
  by_cases hn : h.nbent ≠ 32
  · rw [if_pos hn] at hy
    simp at hy
  · rw [if_neg hn] at hy
    by_cases hcap : isizeMax < (equinoxCount h.starn).2 * starSize
    · rw [if_pos hcap] at hy
      cases hy
    · rw [if_neg hcap] at hy
      cases hit : IdType.tryFrom h.stnum with
      | error e => rw [hit] at hy; simp at hy
      | ok k =>
        rw [hit] at hy
        dsimp only at hy
        cases hre : readEntries (equinoxCount h.starn).2 (s.drop 28) with
        | error e => rw [hre] at hy; simp at hy
        | ok q =>
          obtain ⟨stars, s₂⟩ := q
          rw [hre] at hy
          dsimp only at hy
          injection hy with hy₀
          injection hy₀ with hy'
          injection hy' with hy1 hy2
          subst hy1
          subst hy2
          obtain ⟨h1, h2, h3⟩ :=
            readEntries_rtriple (equinoxCount h.starn).2 (s.drop 28) stars s₂ hre
          subst h1
          refine ⟨?_, ?_, fun t => ?_⟩
          · rw [List.drop_drop]
          · have e1 := List.length_drop 28 s
            omega
          · unfold Catalog.read_from
            rw [List.take_add, List.append_assoc,
              hpre ((s.drop 28).take (32 * (equinoxCount h.starn).2) ++ t)]
            dsimp only
            rw [if_neg hn, if_neg hcap, hit]
            dsimp only
            rw [h3 t]

/-- Witness for `read_from_consumes`: appending the byte 7 to the
60-byte file `file9` leaves exactly `[7]` unconsumed and the same
catalog. -/
theorem read_from_consumes_witness :
    Catalog.read_from
        (file9.take (28 + 32 * (equinoxCount hdr9.starn).2) ++ [7]) =
      .ret (.ok (cat9, [7])) :=
  (read_from_consumes file9 hdr9 recBytes9 cat9 []
    evalHeader9 evalFile9).2.2 [7]

/-! ## Exactness of the f32 rounding on small integers -/

theorem pow2Z_eq (k : ℤ) : pow2Z k = (2 : ℚ) ^ k := by
  unfold pow2Z
  split
  · next h =>
    rw [Rat.mkRat_one, Int.ofNat_eq_natCast]
    push_cast
    rw [← zpow_natCast (2 : ℚ) k.toNat]
    congr 1
    omega
  · next h =>
    rw [Rat.mkRat_eq_div]
    push_cast
    rw [← zpow_natCast (2 : ℚ) (-k).toNat, one_div, ← zpow_neg]
    congr 1
    omega

theorem log2Fuel_spec : ∀ (f n : ℕ), 1 ≤ n → n ≤ f →
    2 ^ log2Fuel f n ≤ n ∧ n < 2 ^ (log2Fuel f n + 1) := by
  intro f
  induction f with
  | zero =>
    intro n h1 h2
    exact absurd (h1.trans h2) (by norm_num)
  | succ f ih =>
    intro n h1 h2
    rw [log2Fuel]
    by_cases hn : n ≤ 1
    · rw [if_pos hn]
      constructor
      · simpa using h1
      · have hone : n = 1 := by omega
        simp [hone]
    · rw [if_neg hn]
      obtain ⟨ha, hb⟩ := ih (n / 2) (by omega) (by omega)
      have e1 : (2 : ℕ) ^ (log2Fuel f (n / 2) + 1) =
          2 ^ log2Fuel f (n / 2) * 2 := pow_succ 2 _
      have e2 : (2 : ℕ) ^ (log2Fuel f (n / 2) + 1 + 1) =
          2 ^ (log2Fuel f (n / 2) + 1) * 2 := pow_succ 2 _
      rw [e1] at hb
      exact ⟨by rw [e1]; omega, by rw [e2, e1]; omega⟩

theorem ratLog2_spec (a : ℚ) (ha : 0 < a) :
    (2 : ℚ) ^ ratLog2 a ≤ a ∧ a < (2 : ℚ) ^ (ratLog2 a + 1) := by
  have hnum : 0 < a.num := Rat.num_pos.mpr ha
  have hdpos : 0 < a.den := a.den_pos
  obtain ⟨hp1, hp2⟩ := log2Fuel_spec a.num.toNat a.num.toNat (by omega) le_rfl
  obtain ⟨hq1, hq2⟩ := log2Fuel_spec a.den a.den (by omega) le_rfl
  set N : ℕ := a.num.toNat with hN
  set D : ℕ := a.den with hD
  set p : ℕ := log2Fuel N N with hpdef
  set q : ℕ := log2Fuel D D with hqdef
  have hND : a = (N : ℚ) / (D : ℚ) := by
    rw [← Rat.num_div_den a]
    congr 1
    exact_mod_cast congrArg (fun z : ℤ => (z : ℚ)) (Int.toNat_of_nonneg hnum.le).symm
  have hDq : (0 : ℚ) < (D : ℚ) := by exact_mod_cast hdpos
  have hp1q : (2 : ℚ) ^ (p : ℤ) ≤ (N : ℚ) := by
    rw [zpow_natCast]
    exact_mod_cast hp1
  have hp2q : (N : ℚ) < (2 : ℚ) ^ ((p : ℤ) + 1) := by
    rw [show (p : ℤ) + 1 = ((p + 1 : ℕ) : ℤ) by push_cast; ring, zpow_natCast]
    exact_mod_cast hp2
  have hq1q : (2 : ℚ) ^ (q : ℤ) ≤ (D : ℚ) := by
    rw [zpow_natCast]
    exact_mod_cast hq1
  have hq2q : (D : ℚ) < (2 : ℚ) ^ ((q : ℤ) + 1) := by
    rw [show (q : ℤ) + 1 = ((q + 1 : ℕ) : ℤ) by push_cast; ring, zpow_natCast]
    exact_mod_cast hq2
  have hup : a < (2 : ℚ) ^ ((p : ℤ) - q + 1) := by
    rw [hND, div_lt_iff hDq]
    calc (N : ℚ) < 2 ^ ((p : ℤ) + 1) := hp2q
      _ = 2 ^ ((p : ℤ) - q + 1) * 2 ^ (q : ℤ) := by
          rw [← zpow_add₀ (by norm_num : (2 : ℚ) ≠ 0)]
          ring_nf
      _ ≤ 2 ^ ((p : ℤ) - q + 1) * D :=
          mul_le_mul_of_nonneg_left hq1q (by positivity)
  have hlo : (2 : ℚ) ^ ((p : ℤ) - q - 1) < a := by
    rw [hND, lt_div_iff hDq]
    calc (2 : ℚ) ^ ((p : ℤ) - q - 1) * D
        < 2 ^ ((p : ℤ) - q - 1) * 2 ^ ((q : ℤ) + 1) :=
          (mul_lt_mul_left (by positivity)).mpr hq2q
      _ = 2 ^ (p : ℤ) := by
          rw [← zpow_add₀ (by norm_num : (2 : ℚ) ≠ 0)]
          ring_nf
      _ ≤ N := hp1q
  unfold ratLog2
  dsimp only
  rw [pow2Z_eq]
  split
  · next hcase => exact ⟨hcase, hup⟩
  · next hcase =>
    push_neg at hcase
    refine ⟨hlo.le, ?_⟩
    rw [show (p : ℤ) - q - 1 + 1 = (p : ℤ) - q by ring]
    exact hcase

theorem ratFloor_eq (x : ℚ) : ratFloor x = ⌊x⌋ := Rat.floor_def.symm

theorem rneInt_eq (x : ℚ) : rneInt x =
    if x - (⌊x⌋ : ℚ) < 1 / 2 then ⌊x⌋
    else if (1 : ℚ) / 2 < x - ⌊x⌋ then ⌊x⌋ + 1
    else if ⌊x⌋ % 2 = 0 then ⌊x⌋ else ⌊x⌋ + 1 := by
  unfold rneInt
  rw [ratFloor_eq]
  dsimp only
  rw [Rat.mkRat_one, show mkRat 1 2 = (1 : ℚ) / 2 from by
    rw [Rat.mkRat_eq_div]; norm_num]

theorem rneInt_intCast (z : ℤ) : rneInt (z : ℚ) = z := by
  rw [rneInt_eq, Int.floor_intCast]
  simp

theorem rneInt_le (x : ℚ) : rneInt x ≤ ⌊x⌋ + 1 := by
  rw [rneInt_eq]
  split
  · omega
  · split
    · omega
    · split <;> omega

theorem f32ToRat_pack (E M : ℕ) (hE1 : 1 ≤ E) (hE2 : E ≤ 254)
    (hM : M < 2 ^ 23) :
    f32ToRat (E * 2 ^ 23 + M) =
      (((2 ^ 23 + M) * 2 ^ E : ℕ) : ℚ) / ((2 ^ 150 : ℕ) : ℚ) := by
  have hexpo : f32Expo (E * 2 ^ 23 + M) = E := by
    unfold f32Expo
    omega
  have hmant : f32Mant (E * 2 ^ 23 + M) = M := by
    unfold f32Mant
    omega
  have hsign : f32Sign (E * 2 ^ 23 + M) = 0 := by
    unfold f32Sign
    omega
  unfold f32ToRat
  dsimp only
  rw [if_pos hsign, hexpo, hmant, if_neg (by omega : ¬E = 0),
    Rat.mkRat_eq_div, Int.ofNat_eq_natCast, Int.cast_natCast]

theorem f32ToRat_neg_pack (b : ℕ) (hb : b < 2 ^ 31) :
    f32ToRat (2 ^ 31 + b) = -f32ToRat b := by
  have hexpo : f32Expo (2 ^ 31 + b) = f32Expo b := by
    unfold f32Expo
    omega
  have hmant : f32Mant (2 ^ 31 + b) = f32Mant b := by
    unfold f32Mant
    omega
  have hsign1 : f32Sign (2 ^ 31 + b) = 1 := by
    unfold f32Sign
    omega
  have hsign0 : f32Sign b = 0 := by
    unfold f32Sign
    omega
  unfold f32ToRat
  dsimp only
  rw [if_neg (show ¬f32Sign (2 ^ 31 + b) = 0 from by omega),
    if_pos hsign0, hexpo, hmant]

theorem roundPosF32_lt (a : ℚ) (ha : 0 < a) : roundPosF32 a < 2 ^ 31 := by
  obtain ⟨hl, hu⟩ := ratLog2_spec a ha
  unfold roundPosF32
  dsimp only
  split
  · next hcase =>
    have h1 : a * pow2Z 149 < ((2 ^ 23 + 1 : ℤ) : ℚ) := by
      rw [pow2Z_eq]
      have h2 : a < (2 : ℚ) ^ (-(126 : ℤ)) :=
        lt_of_lt_of_le hu (zpow_le_zpow_right₀ (by norm_num) (by omega))
      calc a * (2 : ℚ) ^ (149 : ℤ)
          < (2 : ℚ) ^ (-(126 : ℤ)) * 2 ^ (149 : ℤ) :=
            (mul_lt_mul_right (by positivity)).mpr h2
        _ = (2 : ℚ) ^ (23 : ℤ) := by
            rw [← zpow_add₀ (by norm_num : (2 : ℚ) ≠ 0)]
            norm_num
        _ ≤ ((2 ^ 23 + 1 : ℤ) : ℚ) := by
            push_cast
            norm_num
    have h3 : ⌊a * pow2Z 149⌋ < 2 ^ 23 + 1 := Int.floor_lt.mpr h1
    have h4 := rneInt_le (a * pow2Z 149)
    omega
  · next hc1 =>
    split
    · norm_num
    · next hc2 =>
      split
      · next hm =>
        split
        · norm_num
        · next hne =>
          have h1 : (ratLog2 a + 128).toNat ≤ 254 := by omega
          have h2 : (ratLog2 a + 128).toNat * 2 ^ 23 ≤ 254 * 2 ^ 23 :=
            Nat.mul_le_mul_right _ h1
          omega
      · next hm =>
        have h1 : (ratLog2 a + 127).toNat ≤ 254 := by omega
        have h2 : (ratLog2 a + 127).toNat * 2 ^ 23 ≤ 254 * 2 ^ 23 :=
          Nat.mul_le_mul_right _ h1
        omega

theorem roundPosF32_exact (n : ℕ) (h1 : 1 ≤ n) (h2 : n < 2 ^ 24) :
    f32ToRat (roundPosF32 (n : ℚ)) = n := by
  have hpos : (0 : ℚ) < n := by exact_mod_cast h1
  obtain ⟨hl, hu⟩ := ratLog2_spec (n : ℚ) hpos
  set e := ratLog2 (n : ℚ) with he
  have he0 : 0 ≤ e := by
    by_contra hneg
    push_neg at hneg
    have hle : (2 : ℚ) ^ (e + 1) ≤ 2 ^ (0 : ℤ) :=
      zpow_le_zpow_right₀ (by norm_num) (by omega)
    rw [zpow_zero] at hle
    have hlt : (n : ℚ) < 1 := lt_of_lt_of_le hu hle
    have : n < 1 := by exact_mod_cast hlt
    omega
  have he23 : e ≤ 23 := by
    by_contra hgt
    push_neg at hgt
    have h24 : (2 : ℚ) ^ (24 : ℤ) ≤ 2 ^ e :=
      zpow_le_zpow_right₀ (by norm_num) (by omega)
    have h25 : ((2 ^ 24 : ℕ) : ℚ) ≤ (n : ℚ) := by
      calc ((2 ^ 24 : ℕ) : ℚ) = (2 : ℚ) ^ (24 : ℤ) := by
            push_cast
            norm_num
        _ ≤ 2 ^ e := h24
        _ ≤ (n : ℚ) := hl
    have : 2 ^ 24 ≤ n := by exact_mod_cast h25
    omega
  set k := e.toNat with hk
  have hek : e = (k : ℤ) := by omega
  have hnl : 2 ^ k ≤ n := by
    have h := hl
    rw [hek, zpow_natCast] at h
    exact_mod_cast h
  have hnu : n < 2 ^ (k + 1) := by
    have h := hu
    rw [hek, show (k : ℤ) + 1 = ((k + 1 : ℕ) : ℤ) by push_cast; ring,
      zpow_natCast] at h
    exact_mod_cast h
  have hscale : (n : ℚ) * pow2Z (23 - e) = ((n * 2 ^ (23 - k) : ℕ) : ℚ) := by
    rw [pow2Z_eq, hek,
      show (23 : ℤ) - (k : ℤ) = ((23 - k : ℕ) : ℤ) by omega, zpow_natCast]
    push_cast
    ring
  have hm : rneInt ((n : ℚ) * pow2Z (23 - e)) = ((n * 2 ^ (23 - k) : ℕ) : ℤ) := by
    rw [hscale, show ((n * 2 ^ (23 - k) : ℕ) : ℚ) =
      (((n * 2 ^ (23 - k) : ℕ) : ℤ) : ℚ) by push_cast; ring]
    exact rneInt_intCast _
  have hm1 : 2 ^ 23 ≤ n * 2 ^ (23 - k) := by
    calc (2 : ℕ) ^ 23 = 2 ^ k * 2 ^ (23 - k) := by
          rw [← pow_add, show k + (23 - k) = 23 from by omega]
      _ ≤ n * 2 ^ (23 - k) := Nat.mul_le_mul_right _ hnl
  have hm2 : n * 2 ^ (23 - k) < 2 ^ 24 := by
    calc n * 2 ^ (23 - k) < 2 ^ (k + 1) * 2 ^ (23 - k) :=
          Nat.mul_lt_mul_of_lt_of_le hnu (le_refl _) (by positivity)
      _ = 2 ^ 24 := by
          rw [← pow_add, show k + 1 + (23 - k) = 24 from by omega]
  unfold roundPosF32
  dsimp only
  rw [← he]
  rw [if_neg (by omega), if_neg (by omega), hm, Int.toNat_natCast,
    if_neg (by omega), show (e + 127).toNat = k + 127 from by omega,
    f32ToRat_pack (k + 127) (n * 2 ^ (23 - k) - 2 ^ 23) (by omega) (by omega)
      (by omega),
    show 2 ^ 23 + (n * 2 ^ (23 - k) - 2 ^ 23) = n * 2 ^ (23 - k) from by omega,
    show n * 2 ^ (23 - k) * 2 ^ (k + 127) = n * 2 ^ 150 from by
      rw [mul_assoc, ← pow_add, show 23 - k + (k + 127) = 150 from by omega]]
  push_cast
  rw [mul_div_assoc, div_self (by positivity), mul_one]

theorem roundF32_int_exact (z : ℤ) (hz : z.natAbs < 2 ^ 24) :
    f32ToRat (roundF32 (z : ℚ)) = z := by
  rcases lt_trichotomy z 0 with hneg | hzero | hpos
  · have hq : ((z : ℚ)) < 0 := by exact_mod_cast hneg
    unfold roundF32
    rw [if_pos hq]
    have harg : -(z : ℚ) = (((-z).toNat : ℕ) : ℚ) := by
      have h := Int.toNat_of_nonneg (show (0 : ℤ) ≤ -z by omega)
      exact_mod_cast congrArg (fun t : ℤ => (t : ℚ)) h.symm
    have hb := roundPosF32_lt (-(z : ℚ)) (by linarith)
    rw [f32ToRat_neg_pack _ hb, harg,
      roundPosF32_exact (-z).toNat (by omega) (by omega), ← harg, neg_neg]
  · subst hzero
    unfold roundF32
    norm_num
    with_unfolding_all decide
  · have hq : (0 : ℚ) < (z : ℚ) := by exact_mod_cast hpos
    unfold roundF32
    rw [if_neg (by linarith), if_neg (by linarith)]
    have harg : (z : ℚ) = ((z.toNat : ℕ) : ℚ) := by
      have h := Int.toNat_of_nonneg (le_of_lt hpos)
      exact_mod_cast congrArg (fun t : ℤ => (t : ℚ)) h.symm
    rw [harg, roundPosF32_exact z.toNat (by omega) (by omega), ← harg]

/-! ## Claim C5 -/

/-- Claim C5: for every retained record, the output magnitude is the
32-bit float division of the raw signed 16-bit magnitude by 100.0: its
bit pattern is the round-to-nearest-even f32 of the exact rational
`mag / 100` (the i16-to-f32 conversion of `mag` is exact, and `100.0`
is exactly representable, so the one rounding of the division is the
only rounding). -/
theorem tryFrom_mag_div100 (raw : RawEntry) (st : Star)
    (hlo : -(2 ^ 15) ≤ raw.mag) (hhi : raw.mag < 2 ^ 15)
    (h : Star.tryFrom raw = .ok st) :
    st.mag = roundF32 ((raw.mag : ℚ) / 100) := by
  have hmag : st.mag = magConvert raw.mag := by
    unfold Star.tryFrom at h
    split at h
    · cases h
    · injection h with h'
      subst h'
      rfl
  rw [hmag]
  unfold magConvert f32Div i16AsF32
  rw [Rat.mkRat_one, show f32ToRat c100 = 100 from by with_unfolding_all decide,
    roundF32_int_exact raw.mag (by omega)]

/-- Witness for `tryFrom_mag_div100` at the concrete record `raw9`
(mag = 350): the decoded star's magnitude bits round 350/100. -/
theorem tryFrom_mag_div100_witness :
    star9.mag = roundF32 ((raw9.mag : ℚ) / 100) :=
  tryFrom_mag_div100 raw9 star9 (by decide) (by decide) evalTryFrom9

/-! ## The capacity-overflow panic at starn = -2^31 -/

theorem evalHeaderStnumPanic (t : List ℕ) :
    RawHeader.read_from (hdrStnumPanicBytes ++ t) = .ok (hdrStnumPanic, t) := by
  have hsplit : hdrStnumPanicBytes ++ t =
      [0, 0, 0, 0] ++ ([0, 0, 0, 0] ++ ([0, 0, 0, 0x80] ++ ([3, 0, 0, 0] ++
        ([0, 0, 0, 0] ++ ([0, 0, 0, 0] ++ ([32, 0, 0, 0] ++ t)))))) := rfl
  rw [hsplit]
  unfold RawHeader.read_from
  simp only [pstep]
  rw [read_i32_concrete]
  dsimp only
  rw [read_i32_concrete]
  dsimp only
  rw [read_i32_concrete]
  dsimp only
  rw [read_i32_concrete]
  dsimp only
  rw [read_i32_concrete]
  dsimp only
  rw [read_i32_concrete]
  dsimp only
  rw [read_i32_concrete]
  dsimp only
  rfl

theorem evalHeaderXnoPanic (t : List ℕ) :
    RawHeader.read_from (hdrXnoPanicBytes ++ t) = .ok (hdrXnoPanic, t) := by
  have hsplit : hdrXnoPanicBytes ++ t =
      [0, 0, 0, 0] ++ ([0, 0, 0, 0] ++ ([0, 0, 0, 0x80] ++ ([0, 0, 0, 0] ++
        ([0, 0, 0, 0] ++ ([0, 0, 0, 0] ++ ([32, 0, 0, 0] ++ t)))))) := rfl
  rw [hsplit]
  unfold RawHeader.read_from
  simp only [pstep]
  rw [read_i32_concrete]
  dsimp only
  rw [read_i32_concrete]
  dsimp only
  rw [read_i32_concrete]
  dsimp only
  rw [read_i32_concrete]
  dsimp only
  rw [read_i32_concrete]
  dsimp only
  rw [read_i32_concrete]
  dsimp only
  rw [read_i32_concrete]
  dsimp only
  rfl

theorem xnoPanicHdr_decode (t : List ℕ) :
    Catalog.read_from (hdrXnoPanicBytes ++ t) = .panic := by
  unfold Catalog.read_from
  rw [evalHeaderXnoPanic]
  dsimp only
  rw [if_neg (by decide), if_pos (by decide)]

set_option maxRecDepth 2000 in
theorem evalEntryZero :
    RawEntry.read_from (List.replicate 32 0) = .ok (rawZero, []) := by
  have hsplit : List.replicate 32 (0 : ℕ) =
      [0, 0, 0, 0] ++ ([0, 0, 0, 0, 0, 0, 0, 0] ++
        ([0, 0, 0, 0, 0, 0, 0, 0] ++ ([0] ++ ([0] ++ ([0, 0] ++
          ([0, 0, 0, 0] ++ ([0, 0, 0, 0] ++ ([] : List ℕ)))))))) := rfl
  rw [hsplit]
  unfold RawEntry.read_from
  simp only [pstep]
  rw [read_f32_concrete]
  dsimp only
  rw [read_f64_concrete]
  dsimp only
  rw [read_f64_concrete]
  dsimp only
  rw [read_char_concrete 0 (by norm_num)]
  dsimp only
  rw [read_char_concrete 0 (by norm_num)]
  dsimp only
  rw [read_i16_concrete]
  dsimp only
  rw [read_f32_concrete]
  dsimp only
  rw [read_f32_concrete]
  dsimp only
  decide

/-- Counterexample to claim C7 as frozen: the 28-byte header with
`nbent = 32`, `stnum = 3` and `starn = -2^31` derives the record count
`2^64 - 2^31`, so `Vec::with_capacity` panics with capacity overflow
before the stnum conversion is reached — the decode aborts instead of
returning the invalid-stnum error the claim asserts for every such
header. -/
theorem read_from_stnum_panic_cex :
    Catalog.read_from hdrStnumPanicBytes = .panic ∧
    DResult.panic ≠ .ret (.error (.invalidStnum 3)) := by
  constructor
  · have h := evalHeaderStnumPanic []
    rw [List.append_nil] at h
    unfold Catalog.read_from
    rw [h]
    dsimp only
    rw [if_neg (by decide), if_pos (by decide)]
  · decide

/-- Counterexample to claim C3 as frozen: a 60-byte input whose header
has `nbent = 32`, `stnum = 0` and `starn = -2^31`, followed by one
non-blank record whose `xno` encodes -1.0f32 (so the input contains a
validity-passing record with negative `xno`).  The decode panics in
`Vec::with_capacity` before reading any record, so it does not fail
with an invalid-star-number error as the claim asserts. -/
theorem read_from_xno_panic_cex :
    RawEntry.read_from recBytesBad = .ok (rawBad, []) ∧
    rawBad.valid = true ∧ badXno rawBad ∧
    Catalog.read_from fileXnoPanic = .panic ∧
    (Catalog.read_from fileXnoPanic).isInvalidStarNumber = false := by
  have hdec : Catalog.read_from fileXnoPanic = .panic :=
    xnoPanicHdr_decode recBytesBad
  exact ⟨evalEntryBad, by decide, by decide, hdec, by rw [hdec]; rfl⟩

/-- Counterexample to claim C8 as frozen: a stream beginning with the
valid header `nbent = 32`, `stnum = 0`, `starn = -2^31` (derived record
count `R = 2^64 - 2^31`) followed by exactly `R` well-formed all-zero
records (each 32-byte zero block decodes to a non-blank record that
converts successfully).  The stream has the full `28 + 32·R` bytes the
claim speaks of, yet the decode panics in `Vec::with_capacity` after
consuming only the 28 header bytes — it does not consume `28 + 32·R`
bytes and produces no result. -/
theorem read_from_consumes_panic_cex :
    filePanicBig.length = 28 + 32 * (equinoxCount hdrXnoPanic.starn).2 ∧
    RawEntry.read_from (List.replicate 32 0) = .ok (rawZero, []) ∧
    rawZero.valid = true ∧
    Star.tryFrom rawZero = .ok starZero ∧
    Catalog.read_from filePanicBig = .panic := by
  refine ⟨?_, evalEntryZero, by decide, ?_, ?_⟩
  · rw [show (equinoxCount hdrXnoPanic.starn).2 = bigCount from by decide,
      show filePanicBig = hdrXnoPanicBytes ++ List.replicate (32 * bigCount) 0
        from rfl,
      List.length_append, List.length_replicate,
      show hdrXnoPanicBytes.length = 28 from by decide]
  · unfold Star.tryFrom
    rw [if_neg (by decide)]
    rw [show f32AsU32 rawZero.xno = 0 from by decide,
      show magConvert rawZero.mag = 0 from by with_unfolding_all decide]
    rfl
  · exact xnoPanicHdr_decode (List.replicate (32 * bigCount) 0)

end Ybsc
